import Mathlib

/-!
Verification of the polaris-cdash report generator
(src/polaris-cdash/polaris_cdash.py).

The script turns a directory of *.log files plus command-line parameters
into three XML report documents (Build.xml, Test.xml, Done.xml).  We embed
the pure transformation logic: strings become `List Char`, the filesystem
becomes an explicit list of directory-entry names together with a read
function `List Char → Except (List Char) (List Char)` (Python exceptions
become `Except.error` carrying the exception text), and clock readings
become explicit `Nat` / formatting-function parameters.
-/

namespace PolarisCdash

/-- ESC character (codepoint 27), written in the Python source as the
regex literal `\x1B`. -/
def esc : Char := Char.ofNat 27

/-- The keyword searched for in log contents, from
`status = "failed" if "ERROR" in content else "passed"`. -/
def errorWord : List Char := "ERROR".toList

/-- Status string for failing tests. -/
def failedStr : List Char := "failed".toList

/-- Status string for passing tests. -/
def passedStr : List Char := "passed".toList

/-- Literal text preceding the exception message in
`content = f"Error reading file: {e}"`. -/
def errReadingPre : List Char := "Error reading file: ".toList

/-- Embedding of the Python substring test `pat.isPrefixOf s` used below:
true when `pat` is an initial segment of `s`. -/
def startsWithL : List Char → List Char → Bool
  | [], _ => true
  | _ :: _, [] => false
  | p :: ps, c :: cs => p == c && startsWithL ps cs

/-- Embedding of the Python membership test `pat in s` on strings:
true when `pat` occurs as a contiguous substring of `s`. -/
def hasSubstr (pat : List Char) : List Char → Bool
  | [] => startsWithL pat []
  | c :: cs => startsWithL pat (c :: cs) || hasSubstr pat cs

/-- Character class `[@-Z\\-_]` of the ANSI regex: codepoints 0x40-0x5A
or 0x5C-0x5F (a single character following ESC). -/
def isEscFollower (c : Char) : Bool :=
  (0x40 ≤ c.toNat && c.toNat ≤ 0x5A) || (0x5C ≤ c.toNat && c.toNat ≤ 0x5F)

/-- CSI parameter byte class `[0-?]` (0x30-0x3F). -/
def isCsiParam (c : Char) : Bool := 0x30 ≤ c.toNat && c.toNat ≤ 0x3F

/-- CSI intermediate byte class (space to slash, 0x20-0x2F). -/
def isCsiInter (c : Char) : Bool := 0x20 ≤ c.toNat && c.toNat ≤ 0x2F

/-- CSI final byte class `[@-~]` (0x40-0x7E). -/
def isCsiFinal (c : Char) : Bool := 0x40 ≤ c.toNat && c.toNat ≤ 0x7E

/-- Match the CSI tail of the regex (parameter bytes, then intermediate
bytes, then one final byte) against `cs`
(the characters following `ESC [`); on success return the remainder of
the input after the matched sequence.  The three character classes are
pairwise disjoint, so the greedy backtracking match of the Python regex
engine coincides with this two-`dropWhile` scan. -/
def csiRest (cs : List Char) : Option (List Char) :=
  match (cs.dropWhile isCsiParam).dropWhile isCsiInter with
  | c :: rest => if isCsiFinal c then some rest else none
  | [] => none

/-- Worker for `strip_ansi_codes`, fuel-indexed so that the recursion is
structural (each recursive call consumes at least one input character, so
fuel = input length suffices; the fuel-0 case is unreachable then).
Scans for matches of the source's ANSI escape regex (ESC followed either
by one follower-class character or by a bracketed CSI sequence) and deletes
them, exactly as `re.sub` with replacement `''` does: at a position where
no match starts, the character is kept and scanning resumes at the next
position. -/
def stripAux : Nat → List Char → List Char
  | 0, l => l
  | _ + 1, [] => []
  | fuel + 1, c :: cs =>
    if c = esc then
      match cs with
      | [] => [c]
      | d :: ds =>
        if isEscFollower d then stripAux fuel ds
        else if d = '[' then
          match csiRest ds with
          | some rest => stripAux fuel rest
          | none => c :: stripAux fuel cs
        else c :: stripAux fuel cs
    else c :: stripAux fuel cs

/-- Embedding of `strip_ansi_codes`: remove all matches of the ANSI
escape-sequence regex from the text. -/
def strip_ansi_codes (s : List Char) : List Char := stripAux s.length s

/-- Result of opening and reading one log file: `Except.ok` carries the
decoded text (the source opens with errors='replace', so decoding itself
cannot fail), `Except.error` carries the text of the raised exception. -/
abbrev ReadResult := Except (List Char) (List Char)

/-- One entry of the `tests` list built by `generate_test_xml`: the dict
`{'name': ..., 'status': ..., 'output': ..., 'path': ...}`. -/
structure TestRecord where
  name : List Char
  status : List Char
  output : List Char
  path : List Char
deriving DecidableEq

/-- Embedding of Python `str.split('/')` (used by the posixpath helpers):
split a string at every slash, keeping empty pieces. -/
def splitSlash : List Char → List (List Char)
  | [] => [[]]
  | c :: cs =>
    if c = '/' then [] :: splitSlash cs
    else
      match splitSlash cs with
      | [] => [[c]]
      | p :: ps => (c :: p) :: ps

/-- Embedding of `os.path.basename`: the part of the path after the last
slash (the last piece of the slash-split). -/
def basename (p : List Char) : List Char := (splitSlash p).getLastD []

/-- Embedding of `os.path.join dir name` for POSIX paths as used here:
an absolute second argument discards the first; otherwise the two parts
are joined with a slash unless the first is empty or already ends in one. -/
def joinPath (dir name : List Char) : List Char :=
  if name.headD ' ' = '/' then name
  else if dir = [] then name
  else if dir.getLastD ' ' = '/' then dir ++ name
  else dir ++ '/' :: name

/-- Loop body of `generate_test_xml` for a single discovered log file
path: read the file (stripping ANSI escapes on success, substituting the
synthetic diagnostic string when an exception was raised), classify by
the ERROR keyword, and record name/status/output/path. -/
def processLog (read : List Char → ReadResult) (path : List Char) : TestRecord :=
  let filename := basename path
  let content :=
    match read path with
    | .ok raw => strip_ansi_codes raw
    | .error e => errReadingPre ++ e
  { name := filename
    status := if hasSubstr errorWord content then failedStr else passedStr
    output := content
    path := path }

/-- Embedding of Python string comparison `a <= b`: lexicographic order
on the sequences of code points. -/
def strLe : List Char → List Char → Bool
  | [], _ => true
  | _ :: _, [] => false
  | a :: as, b :: bs => if a < b then true else if b < a then false else strLe as bs

/-- Insert an element into a (sorted) list of strings, before the first
element it compares at-most-equal to. -/
def insertLe (a : List Char) : List (List Char) → List (List Char)
  | [] => [a]
  | b :: bs => if strLe a b then a :: b :: bs else b :: insertLe a bs

/-- Embedding of `log_files.sort()` by insertion sort.  Python sorts the
string list itself, so equal keys are equal elements and every sorting
algorithm for `strLe` computes the same function; the sorted output
produced here is characterized below as the unique `strLe`-sorted
permutation of the input. -/
def sortStrs : List (List Char) → List (List Char)
  | [] => []
  | a :: as => insertLe a (sortStrs as)

/-- File-name filter performed by `glob.glob(os.path.join(log_dir, "*.log"))`:
the name must end in ".log", and glob's `*` wildcard does not match names
starting with a dot (hidden files). -/
def globMatchLog (name : List Char) : Bool :=
  name.headD ' ' != '.' && List.isSuffixOf ".log".toList name

/-- Text of one TestList entry: `f"./{args.log_dir}/{test_name}"`. -/
def testListEntry (logDir name : List Char) : List Char :=
  '.' :: '/' :: logDir ++ '/' :: name

/-- Warning printed when the glob finds nothing:
`f"Warning: No log files found in {args.log_dir}"`. -/
def noLogsWarning (logDir : List Char) : List Char :=
  "Warning: No log files found in ".toList ++ logDir

/-- The Testing section of Test.xml as assembled by `generate_test_xml`:
the printed warnings, the session timestamps, the TestList entries (in
emission order), and the per-test records (the Test elements are emitted
by iterating this list in order; each record additionally yields the
derived Path/FullName/FullCommandLine texts and the three constant
NamedMeasurement values, all functions of the fields kept here). -/
structure TestingSection where
  warnings : List (List Char)
  startDateTime : List Char
  startTestTime : List Char
  testList : List (List Char)
  tests : List TestRecord
  endDateTime : List Char
  endTestTime : List Char
deriving DecidableEq

/-- Embedding of Python `str(n)` on a non-negative integer. -/
def natStr (n : Nat) : List Char := (Nat.repr n).toList

/-- Embedding of `generate_test_xml`.  `dirEntries` is the list of file
names in the log directory in the (arbitrary) order the filesystem
enumeration hands them to `glob`; `read` maps a path to the outcome of
opening and reading it; `tStart`/`tEnd`/`tEnd2` are the three
`int(time.time())` readings and `fmtTime` embeds the
`time.strftime("%b %d %H:%M %Z", time.localtime(t))` formatting. -/
def generate_test_xml (logDir : List Char) (dirEntries : List (List Char))
    (read : List Char → ReadResult) (tStart tEnd tEnd2 : Nat)
    (fmtTime : Nat → List Char) : TestingSection :=
  let logFiles := (dirEntries.filter globMatchLog).map (joinPath logDir)
  let sorted := sortStrs logFiles
  { warnings := if logFiles.isEmpty then [noLogsWarning logDir] else []
    startDateTime := fmtTime tStart
    startTestTime := natStr tStart
    testList := sorted.map (fun p => testListEntry logDir (basename p))
    tests := sorted.map (processLog read)
    endDateTime := fmtTime tEnd
    endTestTime := natStr tEnd2 }

/-- The Build.xml document assembled by `generate_build_xml`: the Site
root's attributes (in emission order) and the children of the Build
element as (tag, text) pairs in emission order. -/
structure BuildXmlDoc where
  siteAttrs : List (List Char × List Char)
  buildChildren : List (List Char × List Char)
deriving DecidableEq

/-- Embedding of `generate_build_xml`.  `startTime` is the single
`int(time.time())` reading and `ctime` embeds `time.ctime`. -/
def generate_build_xml (buildName buildStamp siteName : List Char)
    (sysInfo : List (List Char × List Char)) (startTime : Nat)
    (ctime : Nat → List Char) : BuildXmlDoc :=
  { siteAttrs :=
      [("BuildName".toList, buildName), ("BuildStamp".toList, buildStamp),
       ("Name".toList, siteName), ("Generator".toList, "ctest-3.24.2".toList),
       ("CompilerName".toList, []), ("CompilerVersion".toList, [])] ++ sysInfo
    buildChildren :=
      [("StartDateTime".toList, ctime startTime),
       ("StartBuildTime".toList, natStr startTime),
       ("BuildCommand".toList, "polaris_scan".toList),
       ("EndDateTime".toList, ctime startTime),
       ("EndBuildTime".toList, natStr startTime),
       ("ElapsedMinutes".toList, "0".toList)] }

/-- The `platform` module values read by `get_system_info`. -/
structure PlatformInfo where
  system : List Char
  node : List Char
  release : List Char
  version : List Char
  machine : List Char
  is64Bits : Bool
deriving DecidableEq

/-- The values psutil's queries produce when they return normally:
`psutil.cpu_count` returns an int or None (None when the count cannot be
determined), `psutil.virtual_memory().total` is a byte count. -/
structure PsutilData where
  logicalCpu : Option Nat
  physicalCpu : Option Nat
  totalMemBytes : Nat
deriving DecidableEq

/-- Outcome of `import psutil` followed by the three queries of the try
block: the import itself may raise ImportError (the only exception the
source catches), and an imported psutil's queries may themselves raise
some other exception, which the source does not catch. -/
inductive PsutilImport where
  | importError : PsutilImport
  | imported : Except (List Char) PsutilData → PsutilImport

/-- Embedding of Python `str` applied to `cpu_count`'s int-or-None result. -/
def pyStrOfOptNat : Option Nat → List Char
  | some n => natStr n
  | none => "None".toList

/-- Embedding of `get_system_info`.  The result is the key/value mapping
in insertion order, or the propagated exception when an imported psutil's
query raises (only ImportError is caught by the source).  The memory
value `int(total / (1024 * 1024))` is embedded as Nat division (the
source computes it through float division; the claims checked here do
not depend on the rounding of that value). -/
def get_system_info (plat : PlatformInfo) (psutil : PsutilImport) :
    Except (List Char) (List (List Char × List Char)) :=
  let base := [("OSName".toList, plat.system), ("Hostname".toList, plat.node),
    ("OSRelease".toList, plat.release), ("OSVersion".toList, plat.version),
    ("OSPlatform".toList, plat.machine),
    ("Is64Bits".toList, if plat.is64Bits then "1".toList else "0".toList)]
  let constTail := [("VendorString".toList, "Unknown".toList),
    ("VendorID".toList, "Unknown".toList),
    ("FamilyID".toList, "0".toList), ("ModelID".toList, "0".toList),
    ("ProcessorCacheSize".toList, "0".toList),
    ("ProcessorClockFrequency".toList, "0".toList)]
  match psutil with
  | .importError =>
      .ok (base ++ [("NumberOfLogicalCPU".toList, "1".toList),
                    ("NumberOfPhysicalCPU".toList, "1".toList),
                    ("TotalPhysicalMemory".toList, "1024".toList)] ++ constTail)
  | .imported (.error e) => .error e
  | .imported (.ok d) =>
      .ok (base ++ [("NumberOfLogicalCPU".toList, pyStrOfOptNat d.logicalCpu),
                    ("NumberOfPhysicalCPU".toList, pyStrOfOptNat d.physicalCpu),
                    ("TotalPhysicalMemory".toList,
                      natStr (d.totalMemBytes / (1024 * 1024)))] ++ constTail)

/-- The fixed key set of the HostInfo mapping, in insertion order. -/
def hostInfoKeys : List (List Char) :=
  ["OSName".toList, "Hostname".toList, "OSRelease".toList, "OSVersion".toList,
   "OSPlatform".toList, "Is64Bits".toList, "NumberOfLogicalCPU".toList,
   "NumberOfPhysicalCPU".toList, "TotalPhysicalMemory".toList,
   "VendorString".toList, "VendorID".toList, "FamilyID".toList,
   "ModelID".toList, "ProcessorCacheSize".toList,
   "ProcessorClockFrequency".toList]

/-- Path component "." as handled by `posixpath.normpath`. -/
def dotComp : List Char := ".".toList

/-- Path component ".." as handled by `posixpath.normpath`. -/
def dotdotComp : List Char := "..".toList

/-- Component-processing loop of `posixpath.normpath`: walk the
slash-split components, skipping empty and "." components, pushing other
components, and letting ".." pop the previously pushed component (except
at the start of a relative path or after an unresolved ".."); `acc` holds
the pushed components in reverse. -/
def normLoop (isAbs : Bool) : List (List Char) → List (List Char) → List (List Char)
  | [], acc => acc.reverse
  | comp :: rest, acc =>
    if comp = [] ∨ comp = dotComp then normLoop isAbs rest acc
    else if comp ≠ dotdotComp ∨ (¬isAbs ∧ acc = []) ∨ acc.headD [] = dotdotComp then
      normLoop isAbs rest (comp :: acc)
    else if acc ≠ [] then normLoop isAbs rest acc.tail
    else normLoop isAbs rest acc

/-- Embedding of Python `'/'.join(comps)`. -/
def joinSlash : List (List Char) → List Char
  | [] => []
  | [p] => p
  | p :: ps => p ++ '/' :: joinSlash ps

/-- Embedding of `os.path.normpath` for POSIX paths: empty input becomes
".", one leading slash is kept (two when the path starts with exactly two
slashes), components are normalized by `normLoop`, and an empty result
becomes ".". -/
def normpath (p : List Char) : List Char :=
  if p = [] then dotComp
  else
    let isAbs := p.headD ' ' = '/'
    let slashes : Nat :=
      if isAbs then
        if p.take 2 = ['/', '/'] ∧ p.take 3 ≠ ['/', '/', '/'] then 2 else 1
      else 0
    let res := List.replicate slashes '/' ++ joinSlash (normLoop isAbs (splitSlash p) [])
    if res = [] then dotComp else res

/-- Resolution of the build name in `main`: `args.build_name` is None
when the parameter is omitted, and any falsy value (None or the empty
string) is replaced by `os.path.basename(os.path.normpath(args.log_dir))`. -/
def effective_build_name (buildName : Option (List Char)) (logDir : List Char) : List Char :=
  match buildName with
  | none => basename (normpath logDir)
  | some s => if s.isEmpty then basename (normpath logDir) else s

end PolarisCdash

section SanityChecks
open PolarisCdash
example : hasSubstr errorWord "ERROR: boom".toList = true := by decide
example : hasSubstr errorWord "all good".toList = false := by decide
example : strip_ansi_codes (esc :: '[' :: '3' :: '1' :: 'm' :: 'O' :: 'K' :: esc :: '[' :: '0' :: 'm' :: []) = ['O', 'K'] := by decide
example : basename "/data/nightly_run".toList = "nightly_run".toList := by decide
example (e : List Char) : hasSubstr errorWord (errReadingPre ++ e) = hasSubstr errorWord e := rfl
example : normpath "/data/nightly_run".toList = "/data/nightly_run".toList := by decide
example : effective_build_name none "/data/nightly_run".toList = "nightly_run".toList := by decide
example : effective_build_name (some []) "/data/nightly_run/".toList = "nightly_run".toList := by decide
example : normpath "a/b/../c//./d".toList = "a/c/d".toList := by decide
example : sortStrs ["b".toList, "a".toList, "c".toList] = ["a".toList, "b".toList, "c".toList] := by decide
example : globMatchLog "a.log".toList = true ∧ globMatchLog ".hidden.log".toList = false ∧ globMatchLog "a.txt".toList = false := by decide
end SanityChecks

namespace PolarisCdash

theorem strLe_cons_iff {a b : Char} {as bs : List Char} :
    strLe (a :: as) (b :: bs) = true ↔ a < b ∨ (a = b ∧ strLe as bs = true) := by
  simp only [strLe]
  rcases lt_trichotomy a b with h | h | h
  · simp [h]
  · subst h; simp [lt_irrefl]
  · simp [lt_asymm h, h, ne_of_gt h]

theorem strLe_total : ∀ a b : List Char, strLe a b = true ∨ strLe b a = true
  | [], _ => Or.inl rfl
  | _ :: _, [] => Or.inr rfl
  | a :: as, b :: bs => by
    rcases lt_trichotomy a b with h | h | h
    · exact Or.inl (strLe_cons_iff.mpr (Or.inl h))
    · subst h
      rcases strLe_total as bs with h | h
      · exact Or.inl (strLe_cons_iff.mpr (Or.inr ⟨rfl, h⟩))
      · exact Or.inr (strLe_cons_iff.mpr (Or.inr ⟨rfl, h⟩))
    · exact Or.inr (strLe_cons_iff.mpr (Or.inl h))

theorem strLe_trans :
    ∀ a b c : List Char, strLe a b = true → strLe b c = true → strLe a c = true
  | [], _, _, _, _ => rfl
  | _ :: _, [], _, h, _ => by simp [strLe] at h
  | _ :: _, _ :: _, [], _, h => by simp [strLe] at h
  | a :: as, b :: bs, c :: cs, h1, h2 => by
    rcases strLe_cons_iff.mp h1 with hab | ⟨hab, h1'⟩ <;>
      rcases strLe_cons_iff.mp h2 with hbc | ⟨hbc, h2'⟩
    · exact strLe_cons_iff.mpr (Or.inl (lt_trans hab hbc))
    · exact strLe_cons_iff.mpr (Or.inl (hbc ▸ hab))
    · exact strLe_cons_iff.mpr (Or.inl (hab ▸ hbc))
    · exact strLe_cons_iff.mpr (Or.inr ⟨hab.trans hbc, strLe_trans as bs cs h1' h2'⟩)

theorem strLe_antisymm :
    ∀ {a b : List Char}, strLe a b = true → strLe b a = true → a = b
  | [], [], _, _ => rfl
  | [], _ :: _, _, h => by simp [strLe] at h
  | _ :: _, [], h, _ => by simp [strLe] at h
  | a :: as, b :: bs, h1, h2 => by
    rcases strLe_cons_iff.mp h1 with hab | ⟨hab, h1'⟩ <;>
      rcases strLe_cons_iff.mp h2 with hba | ⟨hba, h2'⟩
    · exact absurd hba (lt_asymm hab)
    · exact absurd hab (hba ▸ lt_irrefl b)
    · exact absurd hba (hab ▸ lt_irrefl a)
    · rw [hab, strLe_antisymm h1' h2']

theorem insertLe_perm (a : List Char) : ∀ l, (insertLe a l).Perm (a :: l)
  | [] => .refl _
  | b :: bs => by
    simp only [insertLe]
    split
    · exact .refl _
    · exact ((insertLe_perm a bs).cons b).trans (List.Perm.swap a b bs)

theorem sortStrs_perm : ∀ l, (sortStrs l).Perm l
  | [] => .refl _
  | a :: as => (insertLe_perm a (sortStrs as)).trans ((sortStrs_perm as).cons a)

theorem insertLe_pairwise (a : List Char) : ∀ l : List (List Char),
    l.Pairwise (fun x y => strLe x y = true) →
    (insertLe a l).Pairwise (fun x y => strLe x y = true)
  | [], _ => by simp [insertLe]
  | b :: bs, h => by
    simp only [insertLe]
    split
    · next hab =>
      refine h.cons ?_
      intro y hy
      rcases List.mem_cons.mp hy with rfl | hy
      · exact hab
      · exact strLe_trans _ _ _ hab ((List.pairwise_cons.mp h).1 y hy)
    · next hab =>
      have hba : strLe b a = true := by
        rcases strLe_total a b with h' | h'
        · exact absurd h' hab
        · exact h'
      rcases List.pairwise_cons.mp h with ⟨hb, hbs⟩
      refine (insertLe_pairwise a bs hbs).cons ?_
      intro y hy
      rcases List.mem_cons.mp ((insertLe_perm a bs).mem_iff.mp hy) with rfl | hy
      · exact hba
      · exact hb y hy

theorem sortStrs_pairwise : ∀ l, (sortStrs l).Pairwise (fun x y => strLe x y = true)
  | [] => .nil
  | a :: as => insertLe_pairwise a (sortStrs as) (sortStrs_pairwise as)

theorem sortStrs_eq_of_perm {l1 l2 : List (List Char)} (h : l1.Perm l2) :
    sortStrs l1 = sortStrs l2 := by
  haveI : IsAntisymm (List Char) (fun x y => strLe x y = true) :=
    ⟨fun _ _ => strLe_antisymm⟩
  exact List.eq_of_perm_of_sorted
    ((sortStrs_perm l1).trans (h.trans (sortStrs_perm l2).symm))
    (sortStrs_pairwise l1) (sortStrs_pairwise l2)

end PolarisCdash

namespace PolarisCdash

theorem splitSlash_ne_nil : ∀ l : List Char, splitSlash l ≠ []
  | [] => by simp [splitSlash]
  | c :: cs => by
    simp only [splitSlash]
    split
    · simp
    · rcases hs : splitSlash cs with _ | ⟨p, ps⟩ <;> simp

theorem getLastD_congr {l : List α} (h : l ≠ []) (a b : α) :
    l.getLastD a = l.getLastD b := by
  cases l with
  | nil => exact absurd rfl h
  | cons x t => simp [List.getLastD]

theorem splitSlash_no_slash : ∀ {n : List Char}, '/' ∉ n → splitSlash n = [n]
  | [], _ => rfl
  | c :: cs, h => by
    have hc : ¬(c = '/') := fun e => h (e ▸ List.mem_cons_self _ _)
    have ih := splitSlash_no_slash (fun m => h (List.mem_cons_of_mem _ m))
    simp only [splitSlash, hc, if_false, ih]

theorem splitSlash_mem_no_slash : ∀ {l : List Char}, ∀ p ∈ splitSlash l, '/' ∉ p := by
  intro l
  induction l with
  | nil => intro p hp; simp [splitSlash] at hp; simp [hp]
  | cons c cs ih =>
    intro p hp
    simp only [splitSlash] at hp
    by_cases hc : c = '/'
    · rw [if_pos hc] at hp
      rcases List.mem_cons.mp hp with rfl | hp
      · simp
      · exact ih p hp
    · rw [if_neg hc] at hp
      rcases hs : splitSlash cs with _ | ⟨q, qs⟩
      · exact absurd hs (splitSlash_ne_nil cs)
      · rw [hs] at hp
        rcases List.mem_cons.mp hp with rfl | hp
        · intro hm
          rcases List.mem_cons.mp hm with e | hm
          · exact hc e.symm
          · exact ih q (hs ▸ List.mem_cons_self _ _) hm
        · exact ih p (hs ▸ List.mem_cons_of_mem _ hp)

theorem basename_no_slash {n : List Char} (h : '/' ∉ n) : basename n = n := by
  simp [basename, splitSlash_no_slash h, List.getLastD]

theorem splitSlash_cons_slash (n : List Char) : splitSlash ('/' :: n) = [] :: splitSlash n := by
  simp [splitSlash]

theorem splitSlash_cons_ne {c : Char} (hc : ¬c = '/') (cs q : List Char)
    (qs : List (List Char)) (hs : splitSlash cs = q :: qs) :
    splitSlash (c :: cs) = (c :: q) :: qs := by
  simp only [splitSlash]
  rw [hs, if_neg hc]

theorem splitSlash_sep_length : ∀ d n : List Char, 2 ≤ (splitSlash (d ++ '/' :: n)).length
  | [], n => by
    have h := List.length_pos.mpr (splitSlash_ne_nil n)
    rw [List.nil_append, splitSlash_cons_slash, List.length_cons]
    omega
  | c :: d, n => by
    have ih := splitSlash_sep_length d n
    rw [List.cons_append]
    by_cases hc : c = '/'
    · subst hc
      rw [splitSlash_cons_slash, List.length_cons]
      have := List.length_pos.mpr (splitSlash_ne_nil (d ++ '/' :: n))
      omega
    · rcases hs : splitSlash (d ++ '/' :: n) with _ | ⟨q, qs⟩
      · exact absurd hs (splitSlash_ne_nil _)
      · rw [splitSlash_cons_ne hc _ q qs hs, List.length_cons]
        rw [hs, List.length_cons] at ih
        omega

theorem getLast?_splitSlash_sep : ∀ d n : List Char,
    (splitSlash (d ++ '/' :: n)).getLast? = (splitSlash n).getLast?
  | [], n => by
    rw [List.nil_append, splitSlash_cons_slash]
    rcases hs : splitSlash n with _ | ⟨q, qs⟩
    · exact absurd hs (splitSlash_ne_nil n)
    · rw [List.getLast?_cons_cons]
  | c :: d, n => by
    have ih := getLast?_splitSlash_sep d n
    rw [List.cons_append]
    by_cases hc : c = '/'
    · subst hc
      rw [splitSlash_cons_slash]
      rcases hs : splitSlash (d ++ '/' :: n) with _ | ⟨q, qs⟩
      · exact absurd hs (splitSlash_ne_nil _)
      · rw [List.getLast?_cons_cons]
        rw [hs] at ih
        exact ih
    · rcases hs : splitSlash (d ++ '/' :: n) with _ | ⟨q, qs⟩
      · exact absurd hs (splitSlash_ne_nil _)
      · have hlen := splitSlash_sep_length d n
        rw [hs, List.length_cons] at hlen
        rcases qs with _ | ⟨r, rs⟩
        · simp at hlen
        · rw [splitSlash_cons_ne hc _ q (r :: rs) hs, List.getLast?_cons_cons]
          rw [hs, List.getLast?_cons_cons] at ih
          exact ih

theorem basename_slash_append (d n : List Char) : basename (d ++ '/' :: n) = basename n := by
  rw [basename, basename, List.getLastD_eq_getLast?, List.getLastD_eq_getLast?,
    getLast?_splitSlash_sep]

end PolarisCdash

namespace PolarisCdash

theorem strLe_append_left : ∀ p a b : List Char, strLe (p ++ a) (p ++ b) = strLe a b
  | [], _, _ => rfl
  | c :: p, a, b => by
    show (if c < c then true else if c < c then false else strLe (p ++ a) (p ++ b))
        = strLe a b
    rw [if_neg (lt_irrefl c), if_neg (lt_irrefl c)]
    exact strLe_append_left p a b

theorem headD_ne_slash {n : List Char} (hn : '/' ∉ n) : ¬n.headD ' ' = '/' := by
  cases n with
  | nil => simp
  | cons c cs =>
    simp only [List.headD_cons]
    exact fun e => hn (List.mem_cons.mpr (Or.inl e.symm))

/-- Common prefix that `joinPath dir` prepends to every slash-free file
name (proof helper for order preservation). -/
def dirPre (dir : List Char) : List Char :=
  if dir = [] then []
  else if dir.getLastD ' ' = '/' then dir
  else dir ++ ['/']

theorem joinPath_eq_dirPre {n : List Char} (d : List Char) (hn : '/' ∉ n) :
    joinPath d n = dirPre d ++ n := by
  simp only [joinPath, dirPre, if_neg (headD_ne_slash hn)]
  by_cases h1 : d = []
  · simp [h1]
  · rw [if_neg h1, if_neg h1]
    by_cases h2 : d.getLastD ' ' = '/'
    · rw [if_pos h2, if_pos h2]
    · rw [if_neg h2, if_neg h2, List.append_assoc]
      rfl

theorem basename_joinPath {n : List Char} (d : List Char) (hn : '/' ∉ n) :
    basename (joinPath d n) = n := by
  simp only [joinPath, if_neg (headD_ne_slash hn)]
  by_cases h1 : d = []
  · rw [if_pos h1]
    exact basename_no_slash hn
  · rw [if_neg h1]
    by_cases h2 : d.getLastD ' ' = '/'
    · rw [if_pos h2]
      obtain ⟨d', hd⟩ : ∃ d', d = d' ++ ['/'] := by
        refine ⟨d.dropLast, ?_⟩
        have h3 := List.dropLast_append_getLast h1
        have h4 : d.getLast h1 = '/' := by
          rw [List.getLastD_eq_getLast?, List.getLast?_eq_getLast d h1] at h2
          simpa using h2
        rw [h4] at h3
        exact h3.symm
      rw [hd, List.append_assoc]
      exact (basename_slash_append d' n).trans (basename_no_slash hn)
    · rw [if_neg h2]
      exact (basename_slash_append d n).trans (basename_no_slash hn)

theorem joinSlash_ne_nil {c : List Char} (hc : c ≠ []) :
    ∀ cs, joinSlash (c :: cs) ≠ []
  | [] => by simpa [joinSlash] using hc
  | d :: ds => by simp [joinSlash]

theorem splitSlash_append_no_slash : ∀ {p : List Char}, '/' ∉ p → ∀ q h t,
    splitSlash q = h :: t → splitSlash (p ++ q) = (p ++ h) :: t := by
  intro p
  induction p with
  | nil =>
    intro _ q h t hq
    simpa using hq
  | cons a p ih =>
    intro hp q h t hq
    have ha : ¬a = '/' := fun e => hp (List.mem_cons.mpr (Or.inl e.symm))
    have hp' : '/' ∉ p := fun m => hp (List.mem_cons_of_mem _ m)
    rw [List.cons_append, splitSlash_cons_ne ha _ (p ++ h) t (ih hp' q h t hq)]
    rfl

theorem splitSlash_joinSlash : ∀ cs : List (List Char), cs ≠ [] →
    (∀ c ∈ cs, '/' ∉ c) → splitSlash (joinSlash cs) = cs
  | [], h, _ => absurd rfl h
  | [c], _, hns => by
    simp only [joinSlash]
    exact splitSlash_no_slash (hns c (List.mem_cons_self _ _))
  | c :: c' :: t, _, hns => by
    have ih := splitSlash_joinSlash (c' :: t) (by simp)
      (fun x hx => hns x (List.mem_cons_of_mem _ hx))
    have h1 : splitSlash ('/' :: joinSlash (c' :: t)) = [] :: c' :: t := by
      rw [splitSlash_cons_slash, ih]
    simp only [joinSlash]
    rw [splitSlash_append_no_slash (hns c (List.mem_cons_self _ _)) _ _ _ h1]
    simp

theorem normLoop_no_dots (isAbs : Bool) : ∀ comps acc : List (List Char),
    (∀ c ∈ comps, c ≠ dotComp ∧ c ≠ dotdotComp) →
    normLoop isAbs comps acc = acc.reverse ++ comps.filter (fun c => !c.isEmpty)
  | [], acc, _ => by simp [normLoop]
  | comp :: rest, acc, h => by
    have h1 := h comp (List.mem_cons_self _ _)
    have h2 : ∀ c ∈ rest, c ≠ dotComp ∧ c ≠ dotdotComp :=
      fun c m => h c (List.mem_cons_of_mem _ m)
    by_cases he : comp = []
    · subst he
      simp only [normLoop]
      rw [if_pos (Or.inl trivial), normLoop_no_dots isAbs rest acc h2]
      simp [List.filter_cons]
    · simp only [normLoop]
      rw [if_neg (fun hor => hor.elim he h1.1), if_pos (Or.inl h1.2),
        normLoop_no_dots isAbs rest (comp :: acc) h2]
      have hce : comp.isEmpty = false := by
        cases comp with
        | nil => exact absurd rfl he
        | cons _ _ => rfl
      simp [List.filter_cons, hce]

theorem getLastD_mem {α : Type} {l : List α} (h : l ≠ []) (d : α) : l.getLastD d ∈ l := by
  rw [List.getLastD_eq_getLast?, List.getLast?_eq_getLast l h]
  simp only [Option.getD_some]
  exact List.getLast_mem h

theorem basename_replicate_slash (k : Nat) (x : List Char) :
    basename (List.replicate k '/' ++ x) = basename x := by
  induction k with
  | zero => simp
  | succ k ih =>
    rw [List.replicate_succ, List.cons_append]
    have h := basename_slash_append [] (List.replicate k '/' ++ x)
    rw [List.nil_append] at h
    rw [h, ih]

end PolarisCdash

namespace PolarisCdash

theorem basename_normpath_clean (p : List Char)
    (hnd : ∀ c ∈ splitSlash p, c ≠ dotComp ∧ c ≠ dotdotComp)
    (hne : ∃ c ∈ splitSlash p, c ≠ []) :
    basename (normpath p) =
      ((splitSlash p).filter (fun c => !c.isEmpty)).getLastD [] := by
  obtain ⟨w, hw, hwne⟩ := hne
  have hp : p ≠ [] := by
    rintro rfl
    simp [splitSlash] at hw
    exact hwne hw
  have hwF : w ∈ (splitSlash p).filter (fun c => !c.isEmpty) :=
    List.mem_filter.mpr ⟨hw, by
      cases w with
      | nil => exact absurd rfl hwne
      | cons _ _ => rfl⟩
  have hF : (splitSlash p).filter (fun c => !c.isEmpty) ≠ [] :=
    List.ne_nil_of_mem hwF
  have hmemF : ∀ c ∈ (splitSlash p).filter (fun c => !c.isEmpty), '/' ∉ c :=
    fun c mc => splitSlash_mem_no_slash c (List.mem_filter.mp mc).1
  have hloop : ∀ b : Bool, normLoop b (splitSlash p) [] =
      (splitSlash p).filter (fun c => !c.isEmpty) := by
    intro b
    rw [normLoop_no_dots b (splitSlash p) [] hnd]
    simp
  have hsj : splitSlash (joinSlash ((splitSlash p).filter (fun c => !c.isEmpty)))
      = (splitSlash p).filter (fun c => !c.isEmpty) :=
    splitSlash_joinSlash _ hF hmemF
  have hjne : joinSlash ((splitSlash p).filter (fun c => !c.isEmpty)) ≠ [] := by
    rcases hFs : (splitSlash p).filter (fun c => !c.isEmpty) with _ | ⟨f, fs⟩
    · exact absurd hFs hF
    · have hf : f ≠ [] := by
        have hm := (List.mem_filter.mp
          (by rw [hFs]; exact List.mem_cons_self f fs)).2
        cases f with
        | nil => simp at hm
        | cons _ _ => simp
      rw [hFs]
      exact joinSlash_ne_nil hf fs
  have hres : ∀ k : Nat, List.replicate k '/' ++
      joinSlash ((splitSlash p).filter (fun c => !c.isEmpty)) ≠ [] := by
    intro k hk
    rcases List.append_eq_nil.mp hk with ⟨_, h2⟩
    exact hjne h2
  simp only [normpath, if_neg hp, hloop]
  rw [if_neg (hres _), basename_replicate_slash]
  simp only [basename, hsj]

end PolarisCdash

namespace PolarisCdash

/-- Claim C1: for every log file that the test report generator reads
successfully, the test record's status is "failed" exactly when the
literal, case-sensitive substring "ERROR" occurs anywhere in the
sanitized content, and "passed" otherwise. -/
theorem c1_status_from_sanitized_content (read : List Char → ReadResult)
    (path raw : List Char) (h : read path = .ok raw) :
    ((processLog read path).status = failedStr
        ↔ hasSubstr errorWord (strip_ansi_codes raw) = true)
    ∧ ((processLog read path).status = passedStr
        ↔ hasSubstr errorWord (strip_ansi_codes raw) = false) := by
  have hne : failedStr ≠ passedStr := by decide
  cases hc : hasSubstr errorWord (strip_ansi_codes raw) <;>
    simp [processLog, h, hc, hne, Ne.symm hne]

/-- Witness for C1 at the spec's example contents: "ERROR: boom" is
classified failed and "all good" is classified passed. -/
theorem c1_status_from_sanitized_content_witness :
    (processLog (fun _ => Except.ok "ERROR: boom".toList) "a.log".toList).status = failedStr
    ∧ (processLog (fun _ => Except.ok "all good".toList) "b.log".toList).status = passedStr :=
  ⟨(c1_status_from_sanitized_content _ "a.log".toList "ERROR: boom".toList rfl).1.mpr
      (by decide),
   (c1_status_from_sanitized_content _ "b.log".toList "all good".toList rfl).2.mpr
      (by decide)⟩

/-- Claim C2: ANSI escape sequences are stripped before the ERROR
classification: for every successfully read log file the embedded output
is the stripped content, and when the stripped content lacks the literal
substring "ERROR" the record is classified "passed" even if the raw
bytes contained escape sequences. -/
theorem c2_strip_before_classification (read : List Char → ReadResult)
    (path raw : List Char) (h : read path = .ok raw)
    (hno : hasSubstr errorWord (strip_ansi_codes raw) = false) :
    (processLog read path).output = strip_ansi_codes raw
    ∧ (processLog read path).status = passedStr := by
  simp [processLog, h, hno]

/-- Witness for C2 at the spec's example: raw content ESC [ 3 1 m O K
ESC [ 0 m strips to "OK" and is classified passed. -/
theorem c2_strip_before_classification_witness :
    (processLog
        (fun _ => Except.ok
          (esc :: '[' :: '3' :: '1' :: 'm' :: 'O' :: 'K' :: esc :: '[' :: '0' :: 'm' :: []))
        "c.log".toList).output = "OK".toList
    ∧ (processLog
        (fun _ => Except.ok
          (esc :: '[' :: '3' :: '1' :: 'm' :: 'O' :: 'K' :: esc :: '[' :: '0' :: 'm' :: []))
        "c.log".toList).status = passedStr := by
  have h := c2_strip_before_classification
    (fun _ => Except.ok
      (esc :: '[' :: '3' :: '1' :: 'm' :: 'O' :: 'K' :: esc :: '[' :: '0' :: 'm' :: []))
    "c.log".toList
    (esc :: '[' :: '3' :: '1' :: 'm' :: 'O' :: 'K' :: esc :: '[' :: '0' :: 'm' :: [])
    rfl (by decide)
  exact ⟨h.1.trans (by decide), h.2⟩

/-- Claim C9: when opening a log file raises an exception, the embedded
content is exactly "Error reading file: " followed by the exception text,
with no ANSI stripping applied to it; the status is computed from that
synthetic content by the same ERROR-substring rule, so the record is
"passed" whenever the exception text does not contain the substring. -/
theorem c9_synthetic_error_content (read : List Char → ReadResult)
    (path e : List Char) (h : read path = .error e) :
    (processLog read path).output = errReadingPre ++ e
    ∧ ((processLog read path).status = failedStr
        ↔ hasSubstr errorWord (errReadingPre ++ e) = true)
    ∧ (hasSubstr errorWord e = false → (processLog read path).status = passedStr) := by
  have hkey : hasSubstr errorWord (errReadingPre ++ e) = hasSubstr errorWord e := rfl
  have hne : failedStr ≠ passedStr := by decide
  refine ⟨by simp [processLog, h], ?_, ?_⟩
  · cases hc : hasSubstr errorWord (errReadingPre ++ e) <;>
      simp [processLog, h, hc, hne, Ne.symm hne]
  · intro hno
    simp [processLog, h, hkey, hno]

/-- Witness for C9: an exception text that carries an ANSI escape
sequence but no "ERROR" substring is embedded verbatim after the
synthetic prefix and classified passed. -/
theorem c9_synthetic_error_content_witness :
    (processLog
        (fun _ => Except.error
          (esc :: '[' :: '3' :: '1' :: 'm' :: 'd' :: 'e' :: 'n' :: 'i' :: 'e' :: 'd' :: []))
        "d.log".toList).output
      = errReadingPre ++
          (esc :: '[' :: '3' :: '1' :: 'm' :: 'd' :: 'e' :: 'n' :: 'i' :: 'e' :: 'd' :: [])
    ∧ (processLog
        (fun _ => Except.error
          (esc :: '[' :: '3' :: '1' :: 'm' :: 'd' :: 'e' :: 'n' :: 'i' :: 'e' :: 'd' :: []))
        "d.log".toList).status = passedStr := by
  have h := c9_synthetic_error_content
    (fun _ => Except.error
      (esc :: '[' :: '3' :: '1' :: 'm' :: 'd' :: 'e' :: 'n' :: 'i' :: 'e' :: 'd' :: []))
    "d.log".toList
    (esc :: '[' :: '3' :: '1' :: 'm' :: 'd' :: 'e' :: 'n' :: 'i' :: 'e' :: 'd' :: [])
    rfl
  exact ⟨h.1, h.2.2 (by decide)⟩

end PolarisCdash

namespace PolarisCdash

/-- Claim C4: a log file that cannot be opened never aborts Test.xml
generation: every glob-matched file still yields exactly one test
record, and the unreadable file's record carries the synthetic
error-description content while all remaining files are processed. -/
theorem c4_unreadable_file_tolerated (logDir : List Char)
    (dirEntries : List (List Char)) (read : List Char → ReadResult)
    (tStart tEnd tEnd2 : Nat) (fmtTime : Nat → List Char) (name e : List Char)
    (hmem : name ∈ dirEntries.filter globMatchLog)
    (herr : read (joinPath logDir name) = .error e) :
    (generate_test_xml logDir dirEntries read tStart tEnd tEnd2 fmtTime).tests.length
      = (dirEntries.filter globMatchLog).length
    ∧ ∃ r ∈ (generate_test_xml logDir dirEntries read tStart tEnd tEnd2 fmtTime).tests,
        r.path = joinPath logDir name ∧ r.output = errReadingPre ++ e := by
  constructor
  · simp only [generate_test_xml, List.length_map]
    rw [(sortStrs_perm _).length_eq, List.length_map]
  · refine ⟨processLog read (joinPath logDir name), ?_, rfl, ?_⟩
    · simp only [generate_test_xml]
      exact List.mem_map_of_mem _
        ((sortStrs_perm _).mem_iff.mpr (List.mem_map_of_mem _ hmem))
    · simp [processLog, herr]

/-- Witness for C4: a single unreadable log file still yields one record
carrying the synthetic diagnostic content. -/
theorem c4_unreadable_file_tolerated_witness :
    (generate_test_xml "/tmp/logs".toList ["a.log".toList]
        (fun _ => Except.error "Permission denied".toList) 0 0 0 (fun _ => [])).tests.length
      = 1
    ∧ ∃ r ∈ (generate_test_xml "/tmp/logs".toList ["a.log".toList]
        (fun _ => Except.error "Permission denied".toList) 0 0 0 (fun _ => [])).tests,
        r.path = joinPath "/tmp/logs".toList "a.log".toList
        ∧ r.output = errReadingPre ++ "Permission denied".toList := by
  have h := c4_unreadable_file_tolerated "/tmp/logs".toList ["a.log".toList]
    (fun _ => Except.error "Permission denied".toList) 0 0 0 (fun _ => [])
    "a.log".toList "Permission denied".toList (by decide) rfl
  exact ⟨h.1.trans (by decide), h.2⟩

/-- Claim C5: when the log directory contains no matching log files, the
generator prints the warning and still produces a report with an empty
test list and zero test records. -/
theorem c5_empty_log_dir (logDir : List Char) (dirEntries : List (List Char))
    (read : List Char → ReadResult) (tStart tEnd tEnd2 : Nat)
    (fmtTime : Nat → List Char)
    (h : dirEntries.filter globMatchLog = []) :
    (generate_test_xml logDir dirEntries read tStart tEnd tEnd2 fmtTime).warnings
      = [noLogsWarning logDir]
    ∧ (generate_test_xml logDir dirEntries read tStart tEnd tEnd2 fmtTime).testList = []
    ∧ (generate_test_xml logDir dirEntries read tStart tEnd tEnd2 fmtTime).tests = [] := by
  simp [generate_test_xml, h, sortStrs]

/-- Witness for C5: a directory containing only a non-log file produces
the warning, an empty test list, and no records. -/
theorem c5_empty_log_dir_witness :
    (generate_test_xml "/tmp/logs".toList ["README.txt".toList]
        (fun _ => Except.ok []) 0 0 0 (fun _ => [])).warnings
      = [noLogsWarning "/tmp/logs".toList]
    ∧ (generate_test_xml "/tmp/logs".toList ["README.txt".toList]
        (fun _ => Except.ok []) 0 0 0 (fun _ => [])).testList = []
    ∧ (generate_test_xml "/tmp/logs".toList ["README.txt".toList]
        (fun _ => Except.ok []) 0 0 0 (fun _ => [])).tests = [] :=
  c5_empty_log_dir "/tmp/logs".toList ["README.txt".toList]
    (fun _ => Except.ok []) 0 0 0 (fun _ => []) (by decide)

end PolarisCdash

namespace PolarisCdash

theorem isEmpty_eq_of_perm {α : Type} {l1 l2 : List α} (h : l1.Perm l2) :
    l1.isEmpty = l2.isEmpty := by
  cases l1 with
  | nil => rw [← h.nil_eq]
  | cons a t =>
    cases l2 with
    | nil => exact absurd h.eq_nil (by simp)
    | cons b s => rfl

/-- Claim C3: log files are processed in lexicographically sorted
filename order, independently of the order the filesystem enumeration
returns them: the generated Testing section is invariant under
permutations of the directory listing, the emitted record names are
sorted, and the TestList entries are exactly the records' names, in the
same order, rendered as TestList text. -/
theorem c3_sorted_processing_order (logDir : List Char)
    (e1 e2 : List (List Char)) (read : List Char → ReadResult)
    (tStart tEnd tEnd2 : Nat) (fmtTime : Nat → List Char)
    (hperm : e1.Perm e2) (hsl : ∀ n ∈ e1, '/' ∉ n) :
    generate_test_xml logDir e1 read tStart tEnd tEnd2 fmtTime
      = generate_test_xml logDir e2 read tStart tEnd tEnd2 fmtTime
    ∧ ((generate_test_xml logDir e1 read tStart tEnd tEnd2 fmtTime).tests.map
        TestRecord.name).Pairwise (fun a b => strLe a b = true)
    ∧ (generate_test_xml logDir e1 read tStart tEnd tEnd2 fmtTime).testList
      = (generate_test_xml logDir e1 read tStart tEnd tEnd2 fmtTime).tests.map
          (fun r => testListEntry logDir r.name) := by
  have hpermPaths : ((e1.filter globMatchLog).map (joinPath logDir)).Perm
      ((e2.filter globMatchLog).map (joinPath logDir)) :=
    (hperm.filter globMatchLog).map _
  refine ⟨?_, ?_, ?_⟩
  · have hs : sortStrs ((e1.filter globMatchLog).map (joinPath logDir))
        = sortStrs ((e2.filter globMatchLog).map (joinPath logDir)) :=
      sortStrs_eq_of_perm hpermPaths
    have hemp := isEmpty_eq_of_perm hpermPaths
    simp only [generate_test_xml]
    rw [hemp, hs]
  · have hsorted := sortStrs_pairwise ((e1.filter globMatchLog).map (joinPath logDir))
    have hmem : ∀ x ∈ sortStrs ((e1.filter globMatchLog).map (joinPath logDir)),
        ∃ n, n ∈ e1 ∧ '/' ∉ n ∧ x = joinPath logDir n := by
      intro x hx
      have hx' := (sortStrs_perm _).mem_iff.mp hx
      obtain ⟨n, hn, rfl⟩ := List.mem_map.mp hx'
      have hne1 := List.mem_of_mem_filter hn
      exact ⟨n, hne1, hsl n hne1, rfl⟩
    have hnames : (generate_test_xml logDir e1 read tStart tEnd tEnd2 fmtTime).tests.map
          TestRecord.name
        = (sortStrs ((e1.filter globMatchLog).map (joinPath logDir))).map basename := by
      simp only [generate_test_xml, List.map_map]
      rfl
    rw [hnames, List.pairwise_map]
    refine List.Pairwise.imp_of_mem ?_ hsorted
    intro a b ha hb hab
    obtain ⟨na, hna1, hnas, rfl⟩ := hmem a ha
    obtain ⟨nb, hnb1, hnbs, rfl⟩ := hmem b hb
    rw [basename_joinPath _ hnas, basename_joinPath _ hnbs]
    rw [joinPath_eq_dirPre _ hnas, joinPath_eq_dirPre _ hnbs, strLe_append_left] at hab
    exact hab
  · simp only [generate_test_xml, List.map_map]
    rfl

/-- Witness for C3: the enumeration order b, a, c produces the same
section as a, b, c, and the record names come out sorted. -/
theorem c3_sorted_processing_order_witness :
    generate_test_xml "/tmp/logs".toList ["b.log".toList, "a.log".toList, "c.log".toList]
        (fun _ => Except.ok []) 0 0 0 (fun _ => [])
      = generate_test_xml "/tmp/logs".toList ["a.log".toList, "b.log".toList, "c.log".toList]
        (fun _ => Except.ok []) 0 0 0 (fun _ => [])
    ∧ (generate_test_xml "/tmp/logs".toList ["b.log".toList, "a.log".toList, "c.log".toList]
        (fun _ => Except.ok []) 0 0 0 (fun _ => [])).tests.map TestRecord.name
      = ["a.log".toList, "b.log".toList, "c.log".toList] := by
  have h := c3_sorted_processing_order "/tmp/logs".toList
    ["b.log".toList, "a.log".toList, "c.log".toList]
    ["a.log".toList, "b.log".toList, "c.log".toList]
    (fun _ => Except.ok []) 0 0 0 (fun _ => []) (by decide) (by decide)
  exact ⟨h.1, by decide⟩

end PolarisCdash

namespace PolarisCdash

/-- Counterexample to C6: with psutil importable but one of its queries
raising an exception, the collector propagates the exception instead of
returning a mapping with fallback values, so it is not true that the
host info collector never fails. -/
theorem c6_counterexample_query_failure :
    get_system_info
      ⟨"Linux".toList, "host".toList, "5.0".toList, "v1".toList, "x86_64".toList, true⟩
      (.imported (.error "psutil query failed".toList))
      = Except.error "psutil query failed".toList := rfl

/-- Claim C6 (amended): the host info collector returns a mapping with
the fixed key set whenever psutil is unavailable (ImportError) or its
queries return; on ImportError the CPU/memory values degrade to the
placeholders "1", "1" and "1024".  An exception raised by an imported
psutil's queries is not caught and propagates. -/
theorem c6_fallback_on_import_error (plat : PlatformInfo) :
    (∃ m, get_system_info plat .importError = .ok m
      ∧ m.map Prod.fst = hostInfoKeys
      ∧ m.lookup "NumberOfLogicalCPU".toList = some "1".toList
      ∧ m.lookup "NumberOfPhysicalCPU".toList = some "1".toList
      ∧ m.lookup "TotalPhysicalMemory".toList = some "1024".toList)
    ∧ (∀ d, ∃ m, get_system_info plat (.imported (.ok d)) = .ok m
        ∧ m.map Prod.fst = hostInfoKeys)
    ∧ (∀ e, get_system_info plat (.imported (.error e)) = .error e) :=
  ⟨⟨_, rfl, rfl, rfl, rfl, rfl⟩, fun _ => ⟨_, rfl, rfl⟩, fun _ => rfl⟩

/-- Claim C7: in every generated build report the end timestamp equals
the start timestamp in both the human-readable and the numeric-epoch
form, the elapsed-minutes text is "0", and no Warning or Error child is
ever emitted. -/
theorem c7_instant_successful_build (buildName buildStamp siteName : List Char)
    (sysInfo : List (List Char × List Char)) (t : Nat) (ctime : Nat → List Char) :
    (generate_build_xml buildName buildStamp siteName sysInfo t ctime).buildChildren.lookup
        "EndDateTime".toList
      = (generate_build_xml buildName buildStamp siteName sysInfo t ctime).buildChildren.lookup
        "StartDateTime".toList
    ∧ (generate_build_xml buildName buildStamp siteName sysInfo t ctime).buildChildren.lookup
        "EndBuildTime".toList
      = (generate_build_xml buildName buildStamp siteName sysInfo t ctime).buildChildren.lookup
        "StartBuildTime".toList
    ∧ (generate_build_xml buildName buildStamp siteName sysInfo t ctime).buildChildren.lookup
        "ElapsedMinutes".toList = some "0".toList
    ∧ ∀ tag ∈ (generate_build_xml buildName buildStamp siteName sysInfo t
          ctime).buildChildren.map Prod.fst,
        tag ≠ "Warning".toList ∧ tag ≠ "Error".toList := by
  refine ⟨rfl, rfl, rfl, ?_⟩
  intro tag htag
  simp only [generate_build_xml, List.map_cons, List.map_nil, List.mem_cons,
    List.not_mem_nil, or_false] at htag
  rcases htag with h | h | h | h | h | h <;> subst h <;> exact ⟨by decide, by decide⟩

/-- Claim C8: when the build-name parameter is omitted, the effective
build name is the trailing path segment of the log directory path: for
a directory path whose slash-separated components contain no "." or ".."
and at least one nonempty component, it equals the last nonempty
component. -/
theorem c8_default_build_name (logDir : List Char)
    (hnd : ∀ c ∈ splitSlash logDir, c ≠ dotComp ∧ c ≠ dotdotComp)
    (hne : ∃ c ∈ splitSlash logDir, c ≠ []) :
    effective_build_name none logDir
      = ((splitSlash logDir).filter (fun c => !c.isEmpty)).getLastD [] :=
  basename_normpath_clean logDir hnd hne

/-- Witness for C8 at the spec's example: log directory /data/nightly_run
yields build name nightly_run. -/
theorem c8_default_build_name_witness :
    effective_build_name none "/data/nightly_run".toList = "nightly_run".toList := by
  have h := c8_default_build_name "/data/nightly_run".toList (by decide) (by decide)
  rw [h]
  decide

/-- Claim C10: an empty build-name parameter is treated like an omitted
one: the effective build name is again the trailing path segment of the
log directory, and for a non-degenerate directory path (components free
of "." and "..", at least one nonempty) it is never empty. -/
theorem c10_empty_build_name (logDir : List Char)
    (hnd : ∀ c ∈ splitSlash logDir, c ≠ dotComp ∧ c ≠ dotdotComp)
    (hne : ∃ c ∈ splitSlash logDir, c ≠ []) :
    effective_build_name (some []) logDir = effective_build_name none logDir
    ∧ effective_build_name (some []) logDir ≠ [] := by
  have heq : effective_build_name (some []) logDir = effective_build_name none logDir := rfl
  refine ⟨heq, ?_⟩
  rw [heq]
  have h := basename_normpath_clean logDir hnd hne
  rw [show effective_build_name none logDir = basename (normpath logDir) from rfl, h]
  obtain ⟨w, hw, hwne⟩ := hne
  have hwF : w ∈ (splitSlash logDir).filter (fun c => !c.isEmpty) :=
    List.mem_filter.mpr ⟨hw, by
      cases w with
      | nil => exact absurd rfl hwne
      | cons _ _ => rfl⟩
  have hF : (splitSlash logDir).filter (fun c => !c.isEmpty) ≠ [] :=
    List.ne_nil_of_mem hwF
  intro hcon
  have hmem := getLastD_mem hF ([] : List Char)
  rw [hcon] at hmem
  have := (List.mem_filter.mp hmem).2
  simp at this

/-- Witness for C10: the empty build name with directory /data/nightly_run
resolves to nightly_run, which is nonempty. -/
theorem c10_empty_build_name_witness :
    effective_build_name (some []) "/data/nightly_run".toList
      = effective_build_name none "/data/nightly_run".toList
    ∧ effective_build_name (some []) "/data/nightly_run".toList ≠ [] :=
  c10_empty_build_name "/data/nightly_run".toList (by decide) (by decide)

end PolarisCdash
